import Mathlib

/-!
Shallow embedding of the thunder-speech repository (files
`src/thunder/quartznet/transform.py`, `src/thunder/citrinet/blocks.py`,
`src/thunder/utils.py`) over exact rationals.

Tensors are nested lists of rationals: a `(batch, time)` tensor is a
`List (List ℚ)`, a `(batch, features, time)` tensor a
`List (List (List ℚ))`.  External library primitives that are not part of
the repository (`torch.sqrt`, `torch.log`, `torch.sigmoid`, `torch.stft`,
`torch.randn_like`) are taken as function parameters, so every theorem
quantifies over them.  Division by zero follows Lean's convention `q / 0 = 0`;
where the Python code would produce a float `NaN` that is subsequently masked
away, the masking is what the theorems are about.
-/

namespace Thunder

/-! ## FeatureBatchNormalizer (transform.py lines 65-85)

`forward` computes, per `(batch, feature)` row along the time axis:
`mask = x.abs() > 0.0`, `num_elements = mask.sum(dim=2)`,
`x_mean = x.sum(dim=2) / num_elements`,
`numerator = (x - x_mean).pow(2).sum(dim=2)`,
`x_std = (numerator / num_elements).sqrt() + 1e-5`,
`result = (x - x_mean) / x_std`, then `masked_fill(result, ~mask, 0.0)`.
All reductions are per row (`dim=2`, keepdim), so the operation acts on
each time-row independently. -/

/-- `mask.sum(dim=2)`: the number of timesteps of the row whose absolute
value is strictly positive, as a rational. -/
def countNonzero (x : List ℚ) : ℚ :=
  ((x.filter (fun v => |v| > 0)).length : ℚ)

/-- `x_mean = x.sum(dim=2) / num_elements` for one row. -/
def rowMean (x : List ℚ) : ℚ :=
  x.sum / countNonzero x

/-- `numerator = (x - x_mean).pow(2).sum(dim=2)` for one row: the sum of
squared deviations ranges over every timestep of the row. -/
def rowNumerator (x : List ℚ) : ℚ :=
  (x.map (fun v => (v - rowMean x) ^ 2)).sum

/-- `x_std = (numerator / num_elements).sqrt() + 1e-5` for one row
(`div_guard = 1e-5`); `sqrt` is the external library square root. -/
def rowStd (sqrt : ℚ → ℚ) (x : List ℚ) : ℚ :=
  sqrt (rowNumerator x / countNonzero x) + 1 / 100000

/-- One row of `FeatureBatchNormalizer.forward`: normalize, then
`masked_fill` the positions where the mask is false with `0.0`. -/
def normRow (sqrt : ℚ → ℚ) (x : List ℚ) : List ℚ :=
  x.map (fun v => if |v| > 0 then (v - rowMean x) / rowStd sqrt x else 0)

/-- `FeatureBatchNormalizer.forward` on a `(batch, features, time)` tensor:
all reductions are along `dim=2` with `keepdim=True`, so the whole forward
is the row map applied to every `(batch, feature)` row. -/
def featureBatchNormalizer (sqrt : ℚ → ℚ) (x : List (List (List ℚ))) :
    List (List (List ℚ)) :=
  x.map (fun ex => ex.map (normRow sqrt))

/-- Spec reading of the mean: sum of the non-zero timesteps only, divided
by the count of non-zero timesteps. -/
def rowMeanSpec (x : List ℚ) : ℚ :=
  (x.filter (fun v => |v| > 0)).sum / countNonzero x

/-- Spec reading of the variance numerator: sum of squared deviations over
the non-zero timesteps only. -/
def rowNumeratorSpec (x : List ℚ) : ℚ :=
  ((x.filter (fun v => |v| > 0)).map (fun v => (v - rowMean x) ^ 2)).sum

/-! ## DitherAudio (transform.py lines 88-112)

In training mode: `mask = x > 0.0; return x + mask * (dither * randn_like(x))`;
in eval mode the input is returned unchanged.  The random draw
`randn_like(x)` is an external-library sample; it is a `noise` tensor
parameter of the same `(batch, time)` shape. -/

/-- `DitherAudio.forward`.  `training` is the module's training flag. -/
def ditherForward (training : Bool) (dither : ℚ) (noise x : List (List ℚ)) :
    List (List ℚ) :=
  if training then
    List.zipWith
      (fun xr nr =>
        List.zipWith (fun xi ni => xi + (if xi > 0 then 1 else 0) * (dither * ni))
          xr nr)
      x noise
  else x

/-! ## PreEmphasisFilter (transform.py lines 115-138)

`forward` returns `cat((x[:, 0].unsqueeze(1), x[:, 1:] - preemph * x[:, :-1]), dim=1)`:
the first timestep is kept, every later one becomes `x[n] - preemph * x[n-1]`. -/

/-- One `(batch)` row of `PreEmphasisFilter.forward`: `x[1:] - preemph * x[:-1]`
is the elementwise difference of the tail against the original row, which
`zipWith` realises since the tail is one element shorter. -/
def preEmphRow (preemph : ℚ) (x : List ℚ) : List ℚ :=
  match x with
  | [] => []
  | a :: rest => a :: List.zipWith (fun cur prev => cur - preemph * prev) rest x

/-- `PreEmphasisFilter.forward` on a `(batch, time)` tensor. -/
def preEmphasisFilter (preemph : ℚ) (x : List (List ℚ)) : List (List ℚ) :=
  x.map (preEmphRow preemph)

/-! ## PowerSpectrum (transform.py lines 141-196) -/

/-- State stored by a successfully constructed `PowerSpectrum`. -/
structure PowerSpectrumState where
  win_length : ℤ
  hop_length : ℤ
  n_fft : ℤ
  deriving DecidableEq

/-- `2 ** math.ceil(math.log2 w)` for a positive integer window size `w`:
`Nat.clog 2 w` is the ceiling of the base-2 logarithm. -/
def ceilPow2 (w : ℕ) : ℤ :=
  2 ^ Nat.clog 2 w

/-- `self.n_fft = n_fft or 2 ** math.ceil(math.log2(self.win_length))`
(line 167).  Python's `or` takes the fallback when `n_fft` is `None` or `0`;
any non-zero value (the truthy case) is used as-is. -/
def nfftOf (n_fft : Option ℤ) (win_length : ℕ) : ℤ :=
  match n_fft with
  | none => ceilPow2 win_length
  | some v => if v = 0 then ceilPow2 win_length else v

/-- `PowerSpectrum.__init__`: raises `ValueError` when
`n_window_size <= 0 or n_window_stride <= 0`, otherwise stores the window
parameters and the derived `n_fft`. -/
def powerSpectrumInit (n_window_size n_window_stride : ℤ)
    (n_fft : Option ℤ) : Except String PowerSpectrumState :=
  if n_window_size ≤ 0 ∨ n_window_stride ≤ 0 then
    .error "got an invalid value for either n_window_size or n_window_stride. Both must be positive ints."
  else
    .ok { win_length := n_window_size
          hop_length := n_window_stride
          n_fft := nfftOf n_fft n_window_size.toNat }

/-- `PowerSpectrum.forward`: the external `stft_func` returns a
`(batch, freq, frames, 2)` tensor of real/imaginary parts (modelled as a
parameter returning pairs); the code then takes
`sqrt(x.pow(2).sum(-1))` and squares it. -/
def powerSpectrumForward (sqrt : ℚ → ℚ)
    (stft : List (List ℚ) → List (List (List (ℚ × ℚ)))) (x : List (List ℚ)) :
    List (List (List ℚ)) :=
  (stft x).map (fun ex =>
    ex.map (fun freqRow =>
      freqRow.map (fun c => (sqrt (c.1 ^ 2 + c.2 ^ 2)) ^ 2)))

/-! ## MelScale (transform.py lines 199-245)

`forward` multiplies the fixed filterbank matrix `fb` (built by the external
`create_fb_matrix`, modelled as a matrix parameter) with the input, then if
`log_scale` is set computes `mask = x.abs() > 0.0; x = log(x + 2**-24);
x[~mask] = 0.0`. -/

/-- Dot product of two rational lists. -/
def dotQ (a b : List ℚ) : ℚ :=
  (List.zipWith (· * ·) a b).sum

/-- Column `t` of a `(features, time)` matrix (entries default to `0`). -/
def colQ (m : List (List ℚ)) (t : ℕ) : List ℚ :=
  m.map (fun r => r.getD t 0)

/-- Number of columns of a list-of-rows matrix. -/
def numCols (m : List (List ℚ)) : ℕ :=
  (m.getD 0 []).length

/-- `torch.matmul fb m` for `fb : (nfilt, features)` and `m : (features, time)`. -/
def matmulQ (fb m : List (List ℚ)) : List (List ℚ) :=
  fb.map (fun frow => (List.range (numCols m)).map (fun t => dotQ frow (colQ m t)))

/-- The additive guard `2 ** -24` before the log. -/
def logEps : ℚ := 1 / 2 ^ 24

/-- `MelScale.forward` on a `(batch, features, time)` tensor; `log` is the
external library logarithm. -/
def melScale (log : ℚ → ℚ) (fb : List (List ℚ)) (log_scale : Bool)
    (x : List (List (List ℚ))) : List (List (List ℚ)) :=
  x.map (fun ex =>
    let m := matmulQ fb ex
    if log_scale then
      m.map (fun r => r.map (fun v => if |v| > 0 then log (v + logEps) else 0))
    else m)

/-! ## FilterbankFeatures (transform.py lines 271-289)

`nn.Sequential(DitherAudio, PreEmphasisFilter, PowerSpectrum, MelScale,
FeatureBatchNormalizer)`; `MelScale` is constructed with the default
`log_scale=True`. -/

/-- The full feature pipeline as a function of its input; `training` is the
module's training flag, `noise` the dither's random draw, and `sqrt`, `log`,
`stft`, `fb` the external library pieces. -/
def filterbankFeatures (training : Bool) (sqrt log : ℚ → ℚ)
    (stft : List (List ℚ) → List (List (List (ℚ × ℚ))))
    (fb : List (List ℚ)) (dither preemph : ℚ)
    (noise x : List (List ℚ)) : List (List (List ℚ)) :=
  featureBatchNormalizer sqrt
    (melScale log fb true
      (powerSpectrumForward sqrt stft
        (preEmphasisFilter preemph
          (ditherForward training dither noise x))))

/-! ## SqueezeExcite (citrinet/blocks.py lines 48-83)

`forward`: `y = pool(x)` (`AdaptiveAvgPool1d(1)`: mean over the time axis,
keeping a length-1 time dimension), `y = y.transpose(1, -1)`,
`y = fc(y)` (`Linear(C, C // r, bias=False)`, `ReLU`,
`Linear(C // r, C, bias=False)`, acting on the last axis),
`y = y.transpose(1, -1)`, `y = sigmoid(y)`, `return x * y`
(the length-1 time axis broadcasts over the input's time axis). -/

/-- Mean of a rational list (the `AdaptiveAvgPool1d(1)` kernel). -/
def meanQ (x : List ℚ) : ℚ :=
  x.sum / (x.length : ℚ)

/-- Transpose of a list-of-rows matrix (used per example for
`transpose(1, -1)`; entries default to `0`, which is never reached on
rectangular input). -/
def transposeM (m : List (List ℚ)) : List (List ℚ) :=
  (List.range (numCols m)).map (fun j => m.map (fun r => r.getD j 0))

/-- `nn.Linear(_, _, bias=False)` with weight matrix `W`, acting on a vector. -/
def linearQ (W : List (List ℚ)) (v : List ℚ) : List ℚ :=
  W.map (fun row => dotQ row v)

/-- The `fc` bottleneck: `Linear(W1)`, `ReLU`, `Linear(W2)` on one vector of
the last axis. -/
def seFc (W1 W2 : List (List ℚ)) (v : List ℚ) : List ℚ :=
  linearQ W2 ((linearQ W1 v).map (fun a => max a 0))

/-- `SqueezeExcite.forward` on a `(batch, channels, time)` tensor;
`sigmoid` is the external library sigmoid, `W1 : (C/r, C)` and
`W2 : (C, C/r)` the two linear weights. -/
def squeezeExcite (sigmoid : ℚ → ℚ) (W1 W2 : List (List ℚ))
    (x : List (List (List ℚ))) : List (List (List ℚ)) :=
  List.zipWith
    (fun xb yb =>
      List.zipWith (fun xc yc => xc.map (fun v => v * yc.getD 0 0)) xb yb)
    x
    (((((x.map (fun ex => ex.map (fun ch => [meanQ ch]))).map
          transposeM).map
        (fun ex => ex.map (seFc W1 W2))).map
      transposeM).map
      (fun ex => ex.map (fun r => r.map sigmoid)))

/-- Shape of a `(batch, channels, time)` tensor: the list of per-example
row lengths. -/
def shape3 (x : List (List (List ℚ))) : List (List ℕ) :=
  x.map (fun ex => ex.map List.length)

/-! ## CitrinetBlock shapes (citrinet/blocks.py lines 86-193)

The block builds `self.mconv` out of `repeat - 1` convolution+batchnorm
groups with stride 1 and padding `get_same_padding(kernel_size[0], 1,
dilation[0])`, one final group with the configured stride and padding
`get_same_padding(kernel_size[0], stride[0], dilation[0])`, and a
`SqueezeExcite`; batch norm, activation, dropout and squeeze-excitation all
preserve the `(channels, time)` shape, and a convolution group maps the
channel count to `out_channels` and the time length by the standard 1-d
convolution formula `(L + 2 p - d (k - 1) - 1) / s + 1` (separable
convolutions chain a depthwise convolution with those parameters and a
pointwise one that keeps the length, so their length map is the same).
When `residual=True`, `self.res` is a single convolution group with
`kernel_size=1`, the configured stride, and the constructor's default
padding.  The helpers `get_same_padding` and `_get_conv_bn_layer` live in
`thunder/quartznet/blocks.py`, which is not part of the sources here. -/

/-- Modelled from the spec: `get_same_padding` from
`thunder.quartznet.blocks` (file absent from the sources).  The spec says
the repetitions all use "same" padding computed from kernel size and
dilation; the standard same-padding formula for a 1-d convolution is
`(dilation * (kernel_size - 1)) / 2` rounded down, independent of the
stride argument. -/
def get_same_padding (kernel_size stride dilation : ℕ) : ℕ :=
  dilation * (kernel_size - 1) / 2

/-- Output time length of a 1-d convolution with input length `L`, kernel
`k`, stride `s`, dilation `d` and padding `p` (the external
`torch.nn.Conv1d` formula; the library errors out when the real value
would be non-positive, and natural subtraction truncates there). -/
def convOutLen (L k s d p : ℕ) : ℕ :=
  (L + 2 * p - (d * (k - 1) + 1)) / s + 1

/-- Time length produced by the main path `self.mconv`: `repeat - 1`
stride-1 convolution groups followed by the strided one (batch norm,
activation, dropout and squeeze-excitation keep the length). -/
def mconvLen (rep k s d L : ℕ) : ℕ :=
  convOutLen
    ((fun l => convOutLen l k 1 d (get_same_padding k 1 d))^[rep - 1] L)
    k s d (get_same_padding k s d)

/-- Modelled from the spec: the projection branch is a 1×1 convolution
(`kernel_size=1`) with the configured stride; `_get_conv_bn_layer` is
called without a padding argument and the spec describes the branch as a
plain 1×1 projection, whose default padding is `0`. -/
def resLen (s L : ℕ) : ℕ :=
  convOutLen L 1 s 1 0

/-- `(channels, time)` shape of the main path output for a block with the
given parameters on an input of time length `L`. -/
def mconvShape (out_channels rep k s d L : ℕ) : ℕ × ℕ :=
  (out_channels, mconvLen rep k s d L)

/-- `(channels, time)` shape of the `self.res` projection branch output. -/
def resShape (out_channels s L : ℕ) : ℕ × ℕ :=
  (out_channels, resLen s L)

/-! ## Helper lemmas -/

/-- `getD` with default `[]` commutes with `map` when the function fixes `[]`. -/
lemma getD_map_nil {α β : Type} (g : List α → List β) (hg : g [] = [])
    (x : List (List α)) (b : ℕ) :
    (x.map g).getD b [] = g (x.getD b []) := by
  rcases lt_or_le b x.length with hb | hb
  · rw [List.getD_eq_getElem _ _ (by simpa using hb),
      List.getD_eq_getElem _ _ hb, List.getElem_map]
  · rw [List.getD_eq_default _ _ (by simpa using hb),
      List.getD_eq_default _ _ hb, hg]

/-- Dropping the zero entries of a row does not change its sum. -/
lemma sum_filter_abs_pos (x : List ℚ) :
    (x.filter (fun v => |v| > 0)).sum = x.sum := by
  induction x with
  | nil => rfl
  | cons a t ih =>
    simp only [List.filter_cons, List.sum_cons]
    by_cases h : |a| > 0
    · rw [if_pos (decide_eq_true h), List.sum_cons, ih]
    · have ha : a = 0 := by
        have h0 : |a| = 0 := le_antisymm (not_lt.mp h) (abs_nonneg a)
        exact abs_eq_zero.mp h0
      rw [if_neg (by simpa using h), ih, ha, zero_add]

/-- Splitting a sum of squared deviations into the non-zero timesteps'
part and the zero timesteps' part (each zero timestep contributes `m ^ 2`). -/
lemma sum_sq_dev_split (x : List ℚ) (m : ℚ) :
    (x.map (fun v => (v - m) ^ 2)).sum
      = ((x.filter (fun v => |v| > 0)).map (fun v => (v - m) ^ 2)).sum
        + ((x.filter (fun v => v = 0)).length : ℚ) * m ^ 2 := by
  induction x with
  | nil => simp
  | cons a t ih =>
    simp only [List.filter_cons, List.map_cons, List.sum_cons]
    by_cases h : |a| > 0
    · have ha : ¬ a = 0 := fun h0 => by simp [h0] at h
      rw [if_pos (decide_eq_true h), if_neg (by simpa using ha),
        List.map_cons, List.sum_cons, ih]
      ring
    · have ha : a = 0 := by
        have h0 : |a| = 0 := le_antisymm (not_lt.mp h) (abs_nonneg a)
        exact abs_eq_zero.mp h0
      rw [if_neg (by simpa using h), if_pos (decide_eq_true ha),
        List.length_cons, ih, ha]
      push_cast
      ring

/-- A row whose entries are all zero is normalized to the all-zero row. -/
lemma normRow_of_all_zero (sqrt : ℚ → ℚ) (row : List ℚ)
    (h : ∀ v ∈ row, v = 0) :
    normRow sqrt row = List.replicate row.length 0 := by
  unfold normRow
  have hcong : ∀ v ∈ row,
      (if |v| > 0 then (v - rowMean row) / rowStd sqrt row else 0)
        = (fun _ : ℚ => (0 : ℚ)) v := by
    intro v hv
    rw [h v hv]
    simp
  rw [List.map_congr_left hcong, List.map_const']

/-! ## Claim theorems -/

/-- C1: For every `(batch, features, time)` input to
`FeatureBatchNormalizer.forward`, every `(example, feature)` row whose
entries are all zero is mapped to an all-zero row (in particular no entry
of that output row is a `NaN`): the `masked_fill` overwrites every
position of such a row with `0.0`, for every possible behaviour of the
library square root. -/
theorem featureBatchNormalizer_zero_row (sqrt : ℚ → ℚ)
    (x : List (List (List ℚ))) (b f : ℕ)
    (hz : ∀ v ∈ (x.getD b []).getD f [], v = 0) :
    ((featureBatchNormalizer sqrt x).getD b []).getD f []
      = List.replicate ((x.getD b []).getD f []).length 0 := by
  unfold featureBatchNormalizer
  rw [getD_map_nil (fun ex => ex.map (normRow sqrt)) rfl x b,
    getD_map_nil (normRow sqrt) rfl _ f]
  exact normRow_of_all_zero sqrt _ hz

/-- Witness for C1 at the concrete input `[[[0, 0], [1, 2]]]`. -/
theorem featureBatchNormalizer_zero_row_witness :
    (((featureBatchNormalizer (fun q => q) [[[0, 0], [1, 2]]]).getD 0 []).getD 0 []
      = List.replicate ((([[[(0:ℚ), 0], [1, 2]]].getD 0 []).getD 0 []).length) 0) :=
  featureBatchNormalizer_zero_row (fun q => q) [[[0, 0], [1, 2]]] 0 0
    (by intro v hv; simpa using hv)

/-- C2 counterexample: on the row `[2, 0]` the code's variance numerator
`(x - x_mean).pow(2).sum(dim=2)` equals `4` — the zero timestep contributes
`(0 - 2) ^ 2 = 4` — while a numerator restricted to the non-zero timesteps
would be `0`.  So zero timesteps do contribute to the sum of squared
deviations that defines the standard deviation, contrary to the claim. -/
theorem rowNumerator_zero_timesteps_counterexample :
    rowNumerator [(2 : ℚ), 0] = 4 ∧ rowNumeratorSpec [(2 : ℚ), 0] = 0 := by
  constructor
  · norm_num [rowNumerator, rowMean, countNonzero, List.filter_cons]
  · norm_num [rowNumeratorSpec, rowMean, countNonzero, List.filter_cons]

/-- C2 (amended): in `FeatureBatchNormalizer.forward` the per-row mean is
computed from the non-zero timesteps only (zero timesteps contribute
nothing to the sum) and its divisor is the count of non-zero timesteps;
the sum of squared deviations defining the standard deviation, however,
ranges over ALL timesteps — each zero timestep contributes `mean ^ 2` —
and only its divisor is the count of non-zero timesteps. -/
theorem featureBatchNormalizer_masked_statistics (x : List ℚ) :
    rowMean x = rowMeanSpec x ∧
    rowNumerator x = rowNumeratorSpec x
        + ((x.filter (fun v => v = 0)).length : ℚ) * (rowMean x) ^ 2 := by
  constructor
  · unfold rowMean rowMeanSpec
    rw [sum_filter_abs_pos]
  · exact sum_sq_dev_split x (rowMean x)

/-- Reading a mapped list at an in-range index through `getD`. -/
lemma getD_map_of_lt {α β : Type} (g : α → β) (l : List α) (d : β) (i : ℕ)
    (h : i < l.length) : (l.map g).getD i d = g l[i] := by
  rw [List.getD_eq_getElem (l.map g) d (by simpa using h), List.getElem_map]

/-- Reading a mapped list at an out-of-range index through `getD`. -/
lemma getD_map_of_le {α β : Type} (g : α → β) (l : List α) (d : β) (i : ℕ)
    (h : l.length ≤ i) : (l.map g).getD i d = d :=
  List.getD_eq_default _ _ (by simpa using h)

/-- Applying an entrywise map with `f 0 = 0` to a matrix keeps a zero entry
zero (entries read through `getD`, defaulting to `0`). -/
lemma getD_getD_map_entry (f : ℚ → ℚ) (hf : f 0 = 0) (M : List (List ℚ))
    (i t : ℕ) (h0 : (M.getD i []).getD t 0 = 0) :
    ((M.map (fun r => r.map f)).getD i []).getD t 0 = 0 := by
  rcases lt_or_le i M.length with hi | hi
  · rw [getD_map_of_lt _ _ _ _ hi]
    rw [List.getD_eq_getElem _ _ hi] at h0
    rcases lt_or_le t (M[i]).length with ht | ht
    · rw [getD_map_of_lt _ _ _ _ ht]
      rw [List.getD_eq_getElem _ _ ht] at h0
      rw [h0, hf]
    · rw [getD_map_of_le _ _ _ _ ht]
  · have hi' : (M.map (fun r => r.map f)).length ≤ i := by simpa using hi
    rw [List.getD_eq_default _ _ hi']
    rfl

/-- A dot product against an all-zero vector is zero. -/
lemma dotQ_zero_right (a b : List ℚ) (hb : ∀ v ∈ b, v = 0) : dotQ a b = 0 := by
  induction a generalizing b with
  | nil => simp [dotQ]
  | cons x xs ih =>
    cases b with
    | nil => simp [dotQ]
    | cons y ys =>
      have hy : y = 0 := hb y (List.mem_cons_self _ _)
      have hys : ∀ v ∈ ys, v = 0 := fun v hv => hb v (List.mem_cons_of_mem _ hv)
      have hd : dotQ (x :: xs) (y :: ys) = x * y + dotQ xs ys := by
        simp [dotQ]
      rw [hd, hy, mul_zero, zero_add, ih ys hys]

/-- Every entry of a column of an all-zero matrix is zero. -/
lemma colQ_zero (ex : List (List ℚ)) (t : ℕ)
    (hz : ∀ r ∈ ex, ∀ v ∈ r, v = 0) : ∀ v ∈ colQ ex t, v = 0 := by
  intro v hv
  unfold colQ at hv
  rcases List.mem_map.mp hv with ⟨r, hr, rfl⟩
  rcases lt_or_le t r.length with ht | ht
  · rw [List.getD_eq_getElem _ _ ht]
    exact hz r hr _ (List.getElem_mem _)
  · rw [List.getD_eq_default _ _ ht]

/-- Every entry of the filterbank projection of an all-zero matrix is zero. -/
lemma matmulQ_zero_right (fb ex : List (List ℚ))
    (hz : ∀ r ∈ ex, ∀ v ∈ r, v = 0) (i t : ℕ) :
    ((matmulQ fb ex).getD i []).getD t 0 = 0 := by
  unfold matmulQ
  rcases lt_or_le i fb.length with hi | hi
  · rw [getD_map_of_lt _ _ _ _ hi]
    rcases lt_or_le t (List.range (numCols ex)).length with ht | ht
    · rw [getD_map_of_lt _ _ _ _ ht]
      exact dotQ_zero_right _ _ (colQ_zero ex _ hz)
    · rw [getD_map_of_le _ _ _ _ ht]
  · have hi' : (fb.map (fun frow => (List.range (numCols ex)).map
        (fun t => dotQ frow (colQ ex t)))).length ≤ i := by simpa using hi
    rw [List.getD_eq_default _ _ hi']
    rfl

/-- C3: In `MelScale.forward` with `log_scale=True`, every position where
the mel-filterbank projection `matmul(fb, x)` is exactly zero yields an
output of exactly zero (the mask computed before the log overwrites it),
and on an all-zero input every output entry is zero — for every behaviour
of the library logarithm, so in particular never its value at zero. -/
theorem melScale_log_of_zero (log : ℚ → ℚ) (fb : List (List ℚ))
    (x : List (List (List ℚ))) (b i t : ℕ) :
    (((matmulQ fb (x.getD b [])).getD i []).getD t 0 = 0 →
        (((melScale log fb true x).getD b []).getD i []).getD t 0 = 0)
      ∧ ((∀ ex ∈ x, ∀ r ∈ ex, ∀ v ∈ r, v = 0) →
        (((melScale log fb true x).getD b []).getD i []).getD t 0 = 0) := by
  have key : ∀ h0 : ((matmulQ fb (x.getD b [])).getD i []).getD t 0 = 0,
      (((melScale log fb true x).getD b []).getD i []).getD t 0 = 0 := by
    intro h0
    unfold melScale
    rcases lt_or_le b x.length with hb | hb
    · rw [getD_map_of_lt _ _ _ _ hb]
      rw [List.getD_eq_getElem _ _ hb] at h0
      exact getD_getD_map_entry _ (by simp) _ i t h0
    · have hb' : (x.map (fun ex =>
          let m := matmulQ fb ex
          if true then
            m.map (fun r => r.map (fun v => if |v| > 0 then log (v + logEps) else 0))
          else m)).length ≤ b := by simpa using hb
      rw [List.getD_eq_default _ _ hb']
      rfl
  refine ⟨key, fun hz => key ?_⟩
  apply matmulQ_zero_right
  rcases lt_or_le b x.length with hb | hb
  · rw [List.getD_eq_getElem _ _ hb]
    exact hz _ (List.getElem_mem _)
  · rw [List.getD_eq_default _ _ hb]
    intro r hr
    exact absurd hr (List.not_mem_nil r)

/-- Witness for C3 at `fb = [[1]]`, input `[[[0]]]`, with the logarithm
instantiated by a function that is non-zero at the guarded argument. -/
theorem melScale_log_of_zero_witness :
    (((melScale (fun q => q + 1) [[1]] true [[[0]]]).getD 0 []).getD 0 []).getD 0 0
        = 0 ∧
      (((melScale (fun q => q + 1) [[1]] true [[[0]]]).getD 0 []).getD 0 []).getD 0 0
        = 0 :=
  ⟨(melScale_log_of_zero (fun q => q + 1) [[1]] [[[0]]] 0 0 0).1 (by
      norm_num [matmulQ, numCols, dotQ, colQ, List.range_succ]),
    (melScale_log_of_zero (fun q => q + 1) [[1]] [[[0]]] 0 0 0).2 (by
      intro ex hex r hr v hv
      rw [List.mem_singleton] at hex
      subst hex
      rw [List.mem_singleton] at hr
      subst hr
      rw [List.mem_singleton] at hv
      exact hv)⟩

/-- Reading a zipped list at an index in range of both inputs through `getD`. -/
lemma getD_zipWith_of_lt {α β γ : Type} (f : α → β → γ) (l1 : List α)
    (l2 : List β) (d : γ) (i : ℕ) (h1 : i < l1.length) (h2 : i < l2.length) :
    (List.zipWith f l1 l2).getD i d = f l1[i] l2[i] := by
  have h : i < (List.zipWith f l1 l2).length := by
    rw [List.length_zipWith]
    omega
  rw [List.getD_eq_getElem _ _ h, List.getElem_zipWith]

/-- C4: with the dither amount zero and the module in evaluation mode
(`training = false`), two runs of the `FilterbankFeatures` pipeline on the
same input — that is, under any two draws of the library's dither noise —
produce identical outputs: every other stage is a deterministic function
of its input and `DitherAudio` returns its input unchanged in eval mode. -/
theorem filterbankFeatures_deterministic (training : Bool) (sqrt log : ℚ → ℚ)
    (stft : List (List ℚ) → List (List (List (ℚ × ℚ))))
    (fb : List (List ℚ)) (dither preemph : ℚ)
    (noise1 noise2 x : List (List ℚ))
    (hd : dither = 0) (ht : training = false) :
    filterbankFeatures training sqrt log stft fb dither preemph noise1 x
      = filterbankFeatures training sqrt log stft fb dither preemph noise2 x := by
  subst ht
  rfl

/-- Witness for C4 at a concrete pipeline instance and two distinct noise
draws. -/
theorem filterbankFeatures_deterministic_witness :
    filterbankFeatures false (fun q => q) (fun q => q)
        (fun _ => [[[((1 : ℚ), 1)]]]) [[1]] 0 (97 / 100) [[5]] [[1, 2]]
      = filterbankFeatures false (fun q => q) (fun q => q)
        (fun _ => [[[((1 : ℚ), 1)]]]) [[1]] 0 (97 / 100) [[7]] [[1, 2]] :=
  filterbankFeatures_deterministic false (fun q => q) (fun q => q)
    (fun _ => [[[((1 : ℚ), 1)]]]) [[1]] 0 (97 / 100) [[5]] [[7]] [[1, 2]] rfl rfl

/-- C6: `PreEmphasisFilter.forward` on a `(batch, time)` tensor with
`time >= 1` keeps the shape, keeps the first sample of every row, and maps
every later sample `n >= 1` to `x[b, n] - preemph * x[b, n-1]`. -/
theorem preEmphasisFilter_first_order (preemph : ℚ) (x : List (List ℚ))
    (b : ℕ) (htime : 1 ≤ (x.getD b []).length) :
    ((preEmphasisFilter preemph x).getD b []).length = (x.getD b []).length ∧
    ((preEmphasisFilter preemph x).getD b []).getD 0 0 = (x.getD b []).getD 0 0 ∧
    ∀ n : ℕ, n + 1 < (x.getD b []).length →
      ((preEmphasisFilter preemph x).getD b []).getD (n + 1) 0
        = (x.getD b []).getD (n + 1) 0 - preemph * (x.getD b []).getD n 0 := by
  have hb : b < x.length := by
    by_contra hb
    rw [List.getD_eq_default _ _ (le_of_not_lt hb)] at htime
    exact absurd htime (by simp)
  have htime' : 1 ≤ x[b].length := by
    rwa [List.getD_eq_getElem _ _ hb] at htime
  unfold preEmphasisFilter
  rw [getD_map_of_lt _ _ _ _ hb, List.getD_eq_getElem _ _ hb]
  rcases hx : x[b] with _ | ⟨a, rest⟩
  · rw [hx] at htime'
    exact absurd htime' (by simp)
  · refine ⟨?_, ?_, ?_⟩
    · show (a :: List.zipWith (fun cur prev => cur - preemph * prev) rest (a :: rest)).length
        = (a :: rest).length
      rw [List.length_cons, List.length_cons, List.length_zipWith,
        List.length_cons, min_eq_left (Nat.le_succ _)]
    · rfl
    · intro n hn
      show (a :: List.zipWith (fun cur prev => cur - preemph * prev) rest (a :: rest)).getD (n + 1) 0
        = (a :: rest).getD (n + 1) 0 - preemph * (a :: rest).getD n 0
      rw [List.getD_cons_succ, List.getD_cons_succ]
      have hr : n < rest.length := by
        rw [List.length_cons] at hn
        omega
      have hr' : n < (a :: rest).length := by
        rw [List.length_cons]
        omega
      rw [getD_zipWith_of_lt _ _ _ _ _ hr hr', List.getD_eq_getElem _ _ hr,
        List.getD_eq_getElem _ _ hr']

/-- Witness for C6 at the concrete input `[[4, 5, 6]]` with `preemph = 1/2`. -/
theorem preEmphasisFilter_first_order_witness :
    (((preEmphasisFilter (1 / 2) [[4, 5, 6]]).getD 0 []).length
        = (([[(4 : ℚ), 5, 6]].getD 0 []) : List ℚ).length ∧
      ((preEmphasisFilter (1 / 2) [[4, 5, 6]]).getD 0 []).getD 0 0
        = ([[(4 : ℚ), 5, 6]].getD 0 []).getD 0 0 ∧
      ∀ n : ℕ, n + 1 < ([[(4 : ℚ), 5, 6]].getD 0 []).length →
        ((preEmphasisFilter (1 / 2) [[4, 5, 6]]).getD 0 []).getD (n + 1) 0
          = ([[(4 : ℚ), 5, 6]].getD 0 []).getD (n + 1) 0
            - (1 / 2) * ([[(4 : ℚ), 5, 6]].getD 0 []).getD n 0) :=
  preEmphasisFilter_first_order (1 / 2) [[4, 5, 6]] 0 (by decide)

/-- C9: in training mode `DitherAudio.forward` adds the scaled noise draw
only at positions whose input sample is strictly positive, returns every
sample that is zero or negative unchanged, and in evaluation mode returns
the whole input unchanged. -/
theorem ditherForward_only_positive (training : Bool) (dither : ℚ)
    (noise x : List (List ℚ)) (b t : ℕ) :
    (training = false → ditherForward training dither noise x = x) ∧
    (training = true → b < x.length → b < noise.length →
      t < (x.getD b []).length → t < (noise.getD b []).length →
      ((x.getD b []).getD t 0 ≤ 0 →
        ((ditherForward training dither noise x).getD b []).getD t 0
          = (x.getD b []).getD t 0) ∧
      (0 < (x.getD b []).getD t 0 →
        ((ditherForward training dither noise x).getD b []).getD t 0
          = (x.getD b []).getD t 0 + dither * (noise.getD b []).getD t 0)) := by
  constructor
  · intro h
    subst h
    rfl
  · intro h hb hbn ht htn
    subst h
    rw [List.getD_eq_getElem _ _ hb] at ht ⊢
    rw [List.getD_eq_getElem _ _ hbn] at htn ⊢
    unfold ditherForward
    rw [if_pos rfl, getD_zipWith_of_lt _ _ _ _ _ hb hbn,
      getD_zipWith_of_lt _ _ _ _ _ ht htn,
      List.getD_eq_getElem _ _ ht, List.getD_eq_getElem _ _ htn]
    constructor
    · intro hle
      rw [if_neg (not_lt.mpr hle)]
      ring
    · intro hpos
      rw [if_pos hpos, one_mul]

/-- Witness for C9: eval mode returns the input; in training mode the
sample `-1` is unchanged and the sample `1` receives `dither * noise`. -/
theorem ditherForward_only_positive_witness :
    (ditherForward false 2 [[10, 10]] [[(1 : ℚ), -1]] = [[(1 : ℚ), -1]]) ∧
    ((ditherForward true 2 [[(10 : ℚ), 10]] [[1, -1]]).getD 0 []).getD 1 0
      = ([[(1 : ℚ), -1]].getD 0 []).getD 1 0 ∧
    ((ditherForward true 2 [[(10 : ℚ), 10]] [[1, -1]]).getD 0 []).getD 0 0
      = ([[(1 : ℚ), -1]].getD 0 []).getD 0 0
        + 2 * ([[(10 : ℚ), 10]].getD 0 []).getD 0 0 :=
  ⟨(ditherForward_only_positive false 2 [[10, 10]] [[(1 : ℚ), -1]] 0 0).1 rfl,
    ((ditherForward_only_positive true 2 [[(10 : ℚ), 10]] [[1, -1]] 0 1).2 rfl
      (by decide) (by decide) (by decide) (by decide)).1 (by norm_num),
    ((ditherForward_only_positive true 2 [[(10 : ℚ), 10]] [[1, -1]] 0 0).2 rfl
      (by decide) (by decide) (by decide) (by decide)).2 (by norm_num)⟩

/-- The transpose has one row per column of its input. -/
lemma transposeM_length (m : List (List ℚ)) :
    (transposeM m).length = numCols m := by
  unfold transposeM
  rw [List.length_map, List.length_range]

/-- A bias-free linear layer outputs one entry per weight row. -/
lemma linearQ_length (W : List (List ℚ)) (v : List ℚ) :
    (linearQ W v).length = W.length :=
  List.length_map _ _

/-- The squeeze-excitation bottleneck outputs one gate entry per row of the
second weight matrix. -/
lemma seFc_length (W1 W2 : List (List ℚ)) (v : List ℚ) :
    (seFc W1 W2 v).length = W2.length :=
  linearQ_length _ _

/-- Scaling the channels of `ex` by a per-channel gate of at least the same
channel count keeps the per-channel lengths. -/
lemma shape_zipWith_scale (ex g : List (List ℚ)) (hg : ex.length ≤ g.length) :
    (List.zipWith (fun xc yc => xc.map (fun v => v * yc.getD 0 0)) ex g).map
        List.length
      = ex.map List.length := by
  induction ex generalizing g with
  | nil => simp
  | cons c cs ih =>
    cases g with
    | nil => simp at hg
    | cons y ys =>
      simp only [List.zipWith_cons_cons, List.map_cons, List.length_map]
      rw [ih ys (by simpa using hg)]

/-- The channel count of the squeeze-excitation gate equals the input's
channel count whenever the latter matches the row count of the second
(expanding) weight matrix. -/
lemma seGate_length (sigmoid : ℚ → ℚ) (W1 W2 : List (List ℚ))
    (ex : List (List ℚ)) (hch : ex.length = W2.length) :
    (((transposeM ((transposeM (ex.map (fun ch => [meanQ ch]))).map
        (seFc W1 W2))).map (fun r => r.map sigmoid))).length = ex.length := by
  rw [List.length_map, transposeM_length]
  cases ex with
  | nil =>
    simp [numCols, transposeM]
  | cons c cs =>
    have hP : numCols ((c :: cs).map (fun ch => [meanQ ch])) = 1 := by
      simp [numCols]
    have h1 : (transposeM ((c :: cs).map (fun ch => [meanQ ch]))).map (seFc W1 W2)
        = [seFc W1 W2 (((c :: cs).map (fun ch => [meanQ ch])).map
            (fun r => r.getD 0 0))] := by
      unfold transposeM
      rw [hP]
      simp [List.range_succ]
    rw [h1]
    unfold numCols
    rw [List.getD_cons_zero, seFc_length, ← hch]

/-- C5: For every `(batch, channels, time)` input whose per-example channel
count matches the module's configured channel count (the row count of the
expanding linear weight), `SqueezeExcite.forward` returns a tensor of
exactly the input's shape. -/
theorem squeezeExcite_shape (sigmoid : ℚ → ℚ) (W1 W2 : List (List ℚ))
    (x : List (List (List ℚ)))
    (hch : ∀ ex ∈ x, ex.length = W2.length) :
    shape3 (squeezeExcite sigmoid W1 W2 x) = shape3 x := by
  unfold squeezeExcite shape3
  rw [List.map_map, List.map_map, List.map_map, List.map_map,
    List.zipWith_map_right, List.zipWith_same, List.map_map]
  apply List.map_congr_left
  intro ex hex
  have hg : ex.length ≤ (((transposeM ((transposeM (ex.map
      (fun ch => [meanQ ch]))).map (seFc W1 W2))).map
      (fun r => r.map sigmoid))).length := by
    rw [seGate_length sigmoid W1 W2 ex (hch ex hex)]
  exact shape_zipWith_scale ex _ hg

/-- Witness for C5 at a concrete `(1, 2, 3)` input with `W1 : 1 × 2` and
`W2 : 2 × 1`. -/
theorem squeezeExcite_shape_witness :
    shape3 (squeezeExcite (fun q => q) [[1, 1]] [[1], [1]]
        [[[1, 2, 3], [4, 5, 6]]])
      = shape3 [[[(1 : ℚ), 2, 3], [4, 5, 6]]] :=
  squeezeExcite_shape (fun q => q) [[1, 1]] [[1], [1]]
    [[[1, 2, 3], [4, 5, 6]]]
    (by
      intro ex hex
      rw [List.mem_singleton] at hex
      subst hex
      rfl)

/-- A stride-1 convolution group with the "same" padding keeps the time
length, provided `dilation * (kernel_size - 1)` is even (otherwise the
floor in the padding loses one element). -/
lemma stride1_conv_id (k d : ℕ) (heven : 2 ∣ d * (k - 1)) (l : ℕ)
    (hl : 1 ≤ l) :
    convOutLen l k 1 d (get_same_padding k 1 d) = l := by
  unfold convOutLen get_same_padding
  have h2 : 2 * (d * (k - 1) / 2) = d * (k - 1) := Nat.mul_div_cancel' heven
  omega

/-- Iterating the stride-1 convolution groups keeps the time length. -/
lemma stride1_iter_id (k d : ℕ) (heven : 2 ∣ d * (k - 1)) (n L : ℕ)
    (hL : 1 ≤ L) :
    (fun l => convOutLen l k 1 d (get_same_padding k 1 d))^[n] L = L := by
  induction n with
  | zero => rfl
  | succ n ih =>
    rw [Function.iterate_succ_apply]
    show (fun l => convOutLen l k 1 d (get_same_padding k 1 d))^[n]
        (convOutLen L k 1 d (get_same_padding k 1 d)) = L
    rw [stride1_conv_id k d heven L hL, ih]

/-- C7 counterexample: for a block with `repeat=1`, `kernel_size=(2,)`,
`stride=(1,)`, `dilation=(1,)`, `residual=True` and an input of time
length 3, the main path produces time length 2 (the even kernel with
floored "same" padding drops one element) while the 1×1 projection branch
produces time length 3: the two shapes differ at the summation point. -/
theorem citrinetBlock_res_shape_counterexample :
    mconvShape 64 1 2 1 1 3 ≠ resShape 64 1 3 := by
  decide

/-- C7 (amended): for every `CitrinetBlock` constructed with
`residual=True` whose parameters satisfy `dilation * (kernel_size - 1)`
even (in particular every odd kernel size, as used throughout the model)
and every input with time length at least 1, the `(channels, time)` shape
of the 1×1 projection branch equals the shape of the main convolutional
path at the point where the two are summed. -/
theorem citrinetBlock_res_shape (out_channels rep k s d L : ℕ)
    (heven : 2 ∣ d * (k - 1)) (hL : 1 ≤ L) :
    mconvShape out_channels rep k s d L = resShape out_channels s L := by
  unfold mconvShape resShape
  have hlen : mconvLen rep k s d L = resLen s L := by
    unfold mconvLen resLen
    rw [stride1_iter_id k d heven (rep - 1) L hL]
    unfold convOutLen get_same_padding
    have h2 : 2 * (d * (k - 1) / 2) = d * (k - 1) := Nat.mul_div_cancel' heven
    have hnum : L + 2 * (d * (k - 1) / 2) - (d * (k - 1) + 1) = L - 1 := by
      omega
    have hnum2 : L + 2 * 0 - (1 * (1 - 1) + 1) = L - 1 := by omega
    rw [hnum, hnum2]
  rw [hlen]

/-- Witness for the amended C7 at `repeat=5`, `kernel_size=11`, `stride=2`,
`dilation=1`, input time length 100. -/
theorem citrinetBlock_res_shape_witness :
    mconvShape 64 5 11 2 1 100 = resShape 64 2 100 :=
  citrinetBlock_res_shape 64 5 11 2 1 100 (by decide) (by decide)

/-- C8: `PowerSpectrum.__init__` raises a `ValueError` if and only if
`n_window_size <= 0` or `n_window_stride <= 0`; for positive values of
both it succeeds and stores the window parameters together with the
derived number of fourier features. -/
theorem powerSpectrumInit_valueError (s t : ℤ) (f : Option ℤ) :
    ((∃ e, powerSpectrumInit s t f = .error e) ↔ s ≤ 0 ∨ t ≤ 0) ∧
    (0 < s → 0 < t → powerSpectrumInit s t f
        = .ok { win_length := s, hop_length := t, n_fft := nfftOf f s.toNat }) := by
  unfold powerSpectrumInit
  by_cases h : s ≤ 0 ∨ t ≤ 0
  · rw [if_pos h]
    refine ⟨⟨fun _ => h, fun _ => ⟨_, rfl⟩⟩, fun hs ht => ?_⟩
    rcases h with h | h
    · exact absurd hs (not_lt.mpr h)
    · exact absurd ht (not_lt.mpr h)
  · rw [if_neg h]
    refine ⟨⟨fun he => ?_, fun h' => absurd h' h⟩, fun _ _ => rfl⟩
    rcases he with ⟨e, he⟩
    exact Except.noConfusion he

/-- Witness for C8 at the default parameters `n_window_size = 320`,
`n_window_stride = 160`, `n_fft = None`. -/
theorem powerSpectrumInit_valueError_witness :
    powerSpectrumInit 320 160 none
      = .ok { win_length := 320, hop_length := 160,
              n_fft := nfftOf none (320 : ℤ).toNat } :=
  (powerSpectrumInit_valueError 320 160 none).2 (by decide) (by decide)

/-- C10: with `n_fft=None` the stored number of fourier features is
`2 ** ceil(log2(n_window_size))`, which is the smallest power of two
greater than or equal to the window size (the bound `w ≤ 2 ^ m` transfers
to it for every exponent `m`); a non-zero `n_fft` is stored as-is. -/
theorem nfftOf_default_pow2 (w m : ℕ) (v : ℤ) (hw : 1 ≤ w) (hv : v ≠ 0) :
    nfftOf none w = 2 ^ Nat.clog 2 w ∧
    (w : ℤ) ≤ nfftOf none w ∧
    (w ≤ 2 ^ m → nfftOf none w ≤ (2 : ℤ) ^ m) ∧
    nfftOf (some v) w = v := by
  refine ⟨rfl, ?_, fun hm => ?_, ?_⟩
  · show (w : ℤ) ≤ ceilPow2 w
    unfold ceilPow2
    exact_mod_cast Nat.le_pow_clog one_lt_two w
  · show ceilPow2 w ≤ (2 : ℤ) ^ m
    unfold ceilPow2
    have hc : Nat.clog 2 w ≤ m := (Nat.le_pow_iff_clog_le one_lt_two).mp hm
    exact_mod_cast Nat.pow_le_pow_right (by norm_num) hc
  · show (if v = 0 then ceilPow2 w else v) = v
    rw [if_neg hv]

/-- Witness for C10 at `w = 320` (with `2 ^ 9 = 512` as the covering power
of two) and the non-zero override `n_fft = -7`. -/
theorem nfftOf_default_pow2_witness :
    nfftOf none 320 = 2 ^ Nat.clog 2 320 ∧
    ((320 : ℕ) : ℤ) ≤ nfftOf none 320 ∧
    nfftOf none 320 ≤ (2 : ℤ) ^ 9 ∧
    nfftOf (some (-7)) 320 = -7 :=
  ⟨(nfftOf_default_pow2 320 9 (-7) (by decide) (by decide)).1,
    (nfftOf_default_pow2 320 9 (-7) (by decide) (by decide)).2.1,
    (nfftOf_default_pow2 320 9 (-7) (by decide) (by decide)).2.2.1 (by decide),
    (nfftOf_default_pow2 320 9 (-7) (by decide) (by decide)).2.2.2⟩

end Thunder
